import Mathlib

/-!
Verification of the normalized-transformer ("nGPT") forward contract.

Vectors are shallow-embedded as functions `Fin n → ℝ`, matrices as
`Fin rows → Fin cols → ℝ` (the layout of `nn.Linear(dim, dim_out).weight`,
which is `(dim_out, dim)`).  Floating point is modelled over ℝ; the
numerical floors the library applies (`F.normalize`'s `1e-12` clamp and
`l2norm`'s dtype-dependent `eps`) are kept as explicit real constants and
parameters, since those floors are observable in the program's semantics.
-/

namespace NGPT

/-- Euclidean norm of a vector: `t.norm(dim=-1)` for one slice. -/
noncomputable def norm2 {n : ℕ} (v : Fin n → ℝ) : ℝ :=
  Real.sqrt (∑ i, (v i) ^ 2)

/-- The clamp floor inside `torch.nn.functional.normalize` (its `eps = 1e-12`):
`F.normalize(t, p=2, dim)` divides by `t.norm(dim).clamp_min(1e-12)`. -/
noncomputable def normalizeFloor : ℝ := 1 / 10 ^ 12

/-- `F.normalize(t, dim=-1, p=2)` on one slice: the `norm_eps == 0` branch of
`l2norm` in `nGPT.py`. -/
noncomputable def fnormalize {n : ℕ} (v : Fin n → ℝ) : Fin n → ℝ :=
  fun i => v i / max (norm2 v) normalizeFloor

/-- `Tensor.clamp(min=lo, max=hi)` on a scalar. -/
noncomputable def clampTo (x lo hi : ℝ) : ℝ := min (max x lo) hi

/-- The `norm_eps > 0` branch of `l2norm` in `nGPT.py`:
`norm = t.norm(dim)`, `target_norm = norm.clamp(1-norm_eps, 1+norm_eps)`,
`divisor = norm / target_norm`, `out = t / divisor.clamp(min=eps)`. -/
noncomputable def l2normSoft {n : ℕ} (normEps eps : ℝ) (v : Fin n → ℝ) : Fin n → ℝ :=
  fun i => v i / max (norm2 v / clampTo (norm2 v) (1 - normEps) (1 + normEps)) eps

/-- One slice of `l2norm(t, dim, norm_eps, eps)` (the `groups = 1` case, where
the chunk/stack/cat steps are skipped). -/
noncomputable def l2normBase {n : ℕ} (normEps eps : ℝ) (v : Fin n → ℝ) : Fin n → ℝ :=
  if normEps = 0 then fnormalize v else l2normSoft normEps eps v

/- ### Chunking along the last axis

`t.chunk(g, dim=-1)` of a vector of length `g*m` yields the `g` contiguous
slices of length `m`; `stack` lays them out along a new leading axis, and
`torch.cat([*out], dim=-1)` re-concatenates the slices. -/

/-- The flat index of position `r` inside chunk `c`. -/
def sliceIdx {g m : ℕ} (c : Fin g) (r : Fin m) : Fin (g * m) :=
  ⟨c.val * m + r.val, by
    have hc : c.val + 1 ≤ g := c.isLt
    have h1 : c.val * m + r.val < c.val * m + m := Nat.add_lt_add_left r.isLt _
    have h2 : c.val * m + m = (c.val + 1) * m := (Nat.succ_mul c.val m).symm
    have h3 : (c.val + 1) * m ≤ g * m := Nat.mul_le_mul_right m hc
    exact lt_of_lt_of_le (h2 ▸ h1) h3⟩

/-- Which chunk a flat index lies in. -/
def groupIdx {g m : ℕ} (i : Fin (g * m)) : Fin g :=
  ⟨i.val / m, by
    have hi := i.isLt
    have hm : 0 < m := by
      rcases Nat.eq_zero_or_pos m with h | h
      · subst h; exact absurd hi (by simp)
      · exact h
    exact (Nat.div_lt_iff_lt_mul hm).mpr hi⟩

/-- Position of a flat index inside its chunk. -/
def posIdx {g m : ℕ} (i : Fin (g * m)) : Fin m :=
  ⟨i.val % m, by
    have hi := i.isLt
    have hm : 0 < m := by
      rcases Nat.eq_zero_or_pos m with h | h
      · subst h; exact absurd hi (by simp)
      · exact h
    exact Nat.mod_lt _ hm⟩

/-- Chunk `c` of a vector (`t.chunk(g, dim=-1)[c]`). -/
noncomputable def chunkOf {g m : ℕ} (v : Fin (g * m) → ℝ) (c : Fin g) : Fin m → ℝ :=
  fun r => v (sliceIdx c r)

/-- `torch.cat([*w], dim=-1)`: re-concatenate `g` chunks of length `m`. -/
def catChunks {g m : ℕ} (w : Fin g → Fin m → ℝ) : Fin (g * m) → ℝ :=
  fun i => w (groupIdx i) (posIdx i)

/-- `l2norm(t, dim=-1, norm_eps, eps, groups=g)` on a vector of length `g*m`:
chunk along the last axis, stack (fresh leading axis), normalize along the
last axis — which, the leading stack axis being untouched, acts on each chunk
independently — then `cat` back along the last axis.  With `g = 1` the chunk
and cat reindexings are the identity, matching the code's skipped branch. -/
noncomputable def l2norm (g m : ℕ) (normEps eps : ℝ) (v : Fin (g * m) → ℝ) :
    Fin (g * m) → ℝ :=
  catChunks (fun c => l2normBase normEps eps (chunkOf v c))

/- ### Basic facts about `norm2` -/

theorem sumSq_nonneg {n : ℕ} (v : Fin n → ℝ) : 0 ≤ ∑ i, (v i) ^ 2 :=
  Finset.sum_nonneg fun _ _ => sq_nonneg _

theorem norm2_nonneg {n : ℕ} (v : Fin n → ℝ) : 0 ≤ norm2 v :=
  Real.sqrt_nonneg _

theorem normalizeFloor_pos : 0 < normalizeFloor := by
  unfold normalizeFloor; norm_num

theorem normalizeFloor_le_one : normalizeFloor ≤ 1 := by
  unfold normalizeFloor; norm_num

/-- Dividing every component by a constant divides the norm by its absolute
value. -/
theorem norm2_div_const {n : ℕ} (v : Fin n → ℝ) (d : ℝ) :
    norm2 (fun i => v i / d) = norm2 v / |d| := by
  unfold norm2
  have h : ∑ i, (v i / d) ^ 2 = (∑ i, (v i) ^ 2) / d ^ 2 := by
    rw [Finset.sum_div]
    exact Finset.sum_congr rfl fun i _ => div_pow _ _ _
  rw [h, Real.sqrt_div (sumSq_nonneg v), Real.sqrt_sq_eq_abs]

/-- A vector of norm zero is the zero vector. -/
theorem norm2_eq_zero_iff {n : ℕ} (v : Fin n → ℝ) : norm2 v = 0 ↔ ∀ i, v i = 0 := by
  unfold norm2
  rw [Real.sqrt_eq_zero (sumSq_nonneg v),
    Finset.sum_eq_zero_iff_of_nonneg (fun j _ => sq_nonneg (v j))]
  constructor
  · intro h i
    exact pow_eq_zero_iff two_ne_zero |>.mp (h i (Finset.mem_univ i))
  · intro h i _
    rw [h i]; ring

/-- `F.normalize` yields an exactly unit-norm vector whenever the input's norm
is at least the library's `1e-12` clamp floor. -/
theorem fnormalize_norm2 {n : ℕ} (v : Fin n → ℝ) (h : normalizeFloor ≤ norm2 v) :
    norm2 (fnormalize v) = 1 := by
  have hpos : 0 < norm2 v := lt_of_lt_of_le normalizeFloor_pos h
  unfold fnormalize
  rw [norm2_div_const, max_eq_left h, abs_of_pos hpos, div_self (ne_of_gt hpos)]

/-- `F.normalize` leaves a unit-norm vector unchanged. -/
theorem fnormalize_fixed {n : ℕ} (v : Fin n → ℝ) (h : norm2 v = 1) :
    fnormalize v = v := by
  funext i
  unfold fnormalize
  rw [h, max_eq_left normalizeFloor_le_one, div_one]

theorem l2normBase_zero {n : ℕ} (eps : ℝ) (v : Fin n → ℝ) :
    l2normBase 0 eps v = fnormalize v := by
  unfold l2normBase; simp

theorem l2normBase_pos {n : ℕ} (normEps eps : ℝ) (h : normEps ≠ 0) (v : Fin n → ℝ) :
    l2normBase normEps eps v = l2normSoft normEps eps v := by
  unfold l2normBase; simp [h]

/- ### Chunk bookkeeping -/

theorem catChunks_chunkOf {g m : ℕ} (v : Fin (g * m) → ℝ) :
    catChunks (chunkOf v) = v := by
  funext i
  unfold catChunks chunkOf sliceIdx groupIdx posIdx
  congr 1
  exact Fin.ext (by simpa [Nat.mul_comm] using Nat.div_add_mod i.val m)

theorem chunkOf_catChunks {g m : ℕ} (w : Fin g → Fin m → ℝ) (c : Fin g) :
    chunkOf (catChunks w) c = w c := by
  funext r
  have hm : 0 < m := r.pos
  unfold chunkOf catChunks sliceIdx groupIdx posIdx
  have hdiv : (c.val * m + r.val) / m = c.val := by
    rw [Nat.mul_comm c.val m, Nat.mul_add_div hm, Nat.div_eq_of_lt r.isLt, Nat.add_zero]
  have hmod : (c.val * m + r.val) % m = r.val := by
    rw [Nat.mul_comm c.val m, Nat.mul_add_mod, Nat.mod_eq_of_lt r.isLt]
  congr 1 <;> exact Fin.ext (by simp [hdiv, hmod])

theorem groupIdx_sliceIdx {g m : ℕ} (k : Fin g) (r : Fin m) :
    groupIdx (sliceIdx k r) = k := by
  unfold groupIdx sliceIdx
  apply Fin.ext
  show (k.val * m + r.val) / m = k.val
  rw [Nat.mul_comm k.val m, Nat.mul_add_div r.pos, Nat.div_eq_of_lt r.isLt, Nat.add_zero]

theorem posIdx_sliceIdx {g m : ℕ} (k : Fin g) (r : Fin m) :
    posIdx (sliceIdx k r) = r := by
  unfold posIdx sliceIdx
  apply Fin.ext
  show (k.val * m + r.val) % m = r.val
  rw [Nat.mul_comm k.val m, Nat.mul_add_mod, Nat.mod_eq_of_lt r.isLt]

/- ### The soft (tolerance) branch -/

/-- When the dtype `eps` floor does not override the divisor, the soft branch
scales the vector's norm exactly onto the clamped target. -/
theorem l2normSoft_norm2 {n : ℕ} (normEps eps : ℝ) (v : Fin n → ℝ) (heps : 0 < eps)
    (h : eps ≤ norm2 v / clampTo (norm2 v) (1 - normEps) (1 + normEps)) :
    norm2 (l2normSoft normEps eps v) = clampTo (norm2 v) (1 - normEps) (1 + normEps) := by
  set nv := norm2 v with hnv
  set T := clampTo nv (1 - normEps) (1 + normEps) with hT
  have hdiv : 0 < nv / T := lt_of_lt_of_le heps h
  have hTpos : 0 < T := by
    rcases lt_trichotomy T 0 with hlt | heq | hgt
    · exact absurd hdiv (not_lt.mpr (div_nonpos_of_nonneg_of_nonpos (norm2_nonneg v) hlt.le))
    · exfalso
      rw [heq, div_zero] at hdiv
      exact lt_irrefl 0 hdiv
    · exact hgt
  have hnvpos : 0 < nv := by
    by_contra hc
    have h0 : nv = 0 := le_antisymm (not_lt.mp hc) (norm2_nonneg v)
    rw [h0, zero_div] at hdiv
    exact lt_irrefl 0 hdiv
  unfold l2normSoft
  rw [← hnv, ← hT, max_eq_left h, norm2_div_const, ← hnv,
    abs_of_pos hdiv, div_div_eq_mul_div, mul_comm, mul_div_assoc,
    div_self (ne_of_gt hnvpos), mul_one]

/-- The clamped target norm lies inside the tolerance band. -/
theorem clampTo_band (x normEps : ℝ) (h : 0 ≤ normEps) :
    1 - normEps ≤ clampTo x (1 - normEps) (1 + normEps)
    ∧ clampTo x (1 - normEps) (1 + normEps) ≤ 1 + normEps := by
  unfold clampTo
  constructor
  · exact le_min (le_trans (le_max_right _ _) (le_refl _)) (by linarith)
  · exact min_le_right _ _

/-- A vector whose norm already lies inside the tolerance band passes through
the soft branch unscaled. -/
theorem l2normSoft_in_band {n : ℕ} (normEps eps : ℝ) (v : Fin n → ℝ)
    (heps : eps ≤ 1) (hlo : 1 - normEps ≤ norm2 v) (hhi : norm2 v ≤ 1 + normEps) :
    l2normSoft normEps eps v = v := by
  rcases eq_or_lt_of_le (norm2_nonneg v) with h0 | hpos
  · -- degenerate zero vector: every component is zero, and stays zero
    have hz : ∀ i, v i = 0 := (norm2_eq_zero_iff v).mp h0.symm
    funext i
    unfold l2normSoft
    rw [hz i, zero_div]
  · have hclamp : clampTo (norm2 v) (1 - normEps) (1 + normEps) = norm2 v := by
      unfold clampTo
      rw [max_eq_left hlo, min_eq_left hhi]
    funext i
    unfold l2normSoft
    rw [hclamp, div_self (ne_of_gt hpos), max_eq_left heps, div_one]

/- ### Concrete-vector norm evaluations (used by witnesses and
counterexamples) -/

theorem norm2_single (x : ℝ) : norm2 (fun _ : Fin 1 => x) = |x| := by
  unfold norm2
  rw [Fin.sum_univ_one, Real.sqrt_sq_eq_abs]

theorem norm2_pair (x y : ℝ) : norm2 ![x, y] = Real.sqrt (x ^ 2 + y ^ 2) := by
  unfold norm2
  rw [Fin.sum_univ_two]
  simp

theorem norm2_three_four : norm2 ![(3 : ℝ), 4] = 5 := by
  rw [norm2_pair, show (3 : ℝ) ^ 2 + 4 ^ 2 = 5 ^ 2 by norm_num,
    Real.sqrt_sq (by norm_num)]

theorem norm2_unit_pair : norm2 ![(3 / 5 : ℝ), 4 / 5] = 1 := by
  rw [norm2_pair, show (3 / 5 : ℝ) ^ 2 + (4 / 5) ^ 2 = 1 by norm_num, Real.sqrt_one]

/- ### Scale and the spherical residual wrapper -/

/-- `Scale.forward`: the stored parameter times `forward_scale = init / scale`. -/
noncomputable def Scale.value {n : ℕ} (stored : Fin n → ℝ) (initVal scaleVal : ℝ) :
    Fin n → ℝ :=
  fun i => stored i * (initVal / scaleVal)

/-- `Tensor.lerp(input, end, weight) = input + weight * (end - input)`. -/
noncomputable def lerp (a b w : ℝ) : ℝ := a + w * (b - a)

/-- `Residual.forward` on one model-dimension slice: normalize the inner
block's output, interpolate `residual.lerp(out, branch_scale())`, and
normalize the fused result.  (`nGPT` constructs every `Residual` with the
default `groups = 1`, so its `L2Norm` is the ungrouped slice normalizer.) -/
noncomputable def Residual.forward {n : ℕ} (fn : (Fin n → ℝ) → (Fin n → ℝ))
    (stored : Fin n → ℝ) (initVal scaleVal : ℝ) (normEps eps : ℝ)
    (x : Fin n → ℝ) : Fin n → ℝ :=
  let out := l2normBase normEps eps (fn x)
  l2normBase normEps eps
    (fun i => lerp (x i) (out i) (Scale.value stored initVal scaleVal i))

/-- Unfolding equation for `Residual.forward`. -/
theorem Residual.forward_eq {n : ℕ} (fn : (Fin n → ℝ) → (Fin n → ℝ))
    (stored : Fin n → ℝ) (initVal scaleVal normEps eps : ℝ) (x : Fin n → ℝ) :
    Residual.forward fn stored initVal scaleVal normEps eps x
    = l2normBase normEps eps (fun i => lerp (x i) (l2normBase normEps eps (fn x) i)
        (Scale.value stored initVal scaleVal i)) := rfl

/- ### Claim C1 -/

/-- C1 (amended): with `tolerance = 0`, for every input `x` and every inner
block `fn`, the wrapper's output has Euclidean norm exactly 1 provided the
interpolated vector `residual.lerp(l2norm(fn x), branch_scale())` has norm at
least the `F.normalize` clamp floor (when the interpolation degenerates below
the floor — e.g. it is the zero vector — the final normalization divides by
the floor instead and the output norm is below 1). -/
theorem residual_output_unit_norm {n : ℕ} (fn : (Fin n → ℝ) → (Fin n → ℝ))
    (stored : Fin n → ℝ) (initVal scaleVal eps : ℝ) (x : Fin n → ℝ)
    (h : normalizeFloor ≤ norm2 (fun i =>
      lerp (x i) (l2normBase 0 eps (fn x) i) (Scale.value stored initVal scaleVal i))) :
    norm2 (Residual.forward fn stored initVal scaleVal 0 eps x) = 1 := by
  unfold Residual.forward
  rw [l2normBase_zero]
  exact fnormalize_norm2 _ h

theorem fnormalize_three_four : fnormalize ![(3 : ℝ), 4] = ![(3 / 5 : ℝ), 4 / 5] := by
  funext i
  unfold fnormalize
  rw [norm2_three_four, max_eq_left (by unfold normalizeFloor; norm_num)]
  fin_cases i <;> norm_num

/-- C1 witness: input `(0,0)`, inner block constantly `(3,4)`, branch scale 1. -/
theorem residual_output_unit_norm_witness :
    norm2 (Residual.forward (fun _ => ![(3 : ℝ), 4]) ![1, 1] 1 1 0 0 ![0, 0]) = 1 := by
  refine residual_output_unit_norm _ _ _ _ _ _ ?_
  have h : (fun i => lerp (![(0 : ℝ), 0] i) (l2normBase 0 0 ![(3 : ℝ), 4] i)
      (Scale.value ![1, 1] 1 1 i)) = ![(3 / 5 : ℝ), 4 / 5] := by
    rw [l2normBase_zero, fnormalize_three_four]
    funext i
    fin_cases i <;> simp [lerp, Scale.value]
  rw [h, norm2_unit_pair]
  exact normalizeFloor_le_one

/-- C1 counterexample: on the unit-norm input `(1)` with inner block
`v ↦ -v` and branch scale `1/2`, the interpolation collapses to the zero
vector and the wrapper's output has norm 0, not 1. -/
theorem residual_output_unit_norm_cex :
    norm2 ![(1 : ℝ)] = 1
    ∧ norm2 (Residual.forward (fun v i => -(v i)) ![(1 / 2 : ℝ)] 1 1 0 0 ![(1 : ℝ)]) ≠ 1 := by
  have hx : norm2 ![(1 : ℝ)] = 1 := by
    rw [show norm2 ![(1 : ℝ)] = |(1 : ℝ)| from norm2_single 1]
    norm_num
  refine ⟨hx, ?_⟩
  have hneg : l2normBase 0 0 (fun i => -(![(1 : ℝ)] i)) = fun _ : Fin 1 => -1 := by
    rw [l2normBase_zero]
    funext i
    unfold fnormalize
    rw [show norm2 (fun i => -(![(1 : ℝ)] i)) = 1 by
      rw [show (fun i => -(![(1 : ℝ)] i)) = (fun _ : Fin 1 => (-1 : ℝ)) by
        funext j; fin_cases j; norm_num]
      rw [norm2_single]; norm_num]
    rw [max_eq_left normalizeFloor_le_one]
    fin_cases i; norm_num
  rw [Residual.forward_eq, hneg]
  have hlerp : (fun i => lerp (![(1 : ℝ)] i) ((fun _ : Fin 1 => (-1 : ℝ)) i)
      (Scale.value ![(1 / 2 : ℝ)] 1 1 i)) = fun _ : Fin 1 => 0 := by
    funext i
    fin_cases i; simp [lerp, Scale.value]; norm_num
  rw [hlerp, l2normBase_zero]
  have hz : fnormalize (fun _ : Fin 1 => (0 : ℝ)) = fun _ => 0 := by
    funext i; unfold fnormalize; simp
  rw [hz, show norm2 (fun _ : Fin 1 => (0 : ℝ)) = 0 by rw [norm2_single]; simp]
  norm_num

/- ### Claim C3 -/

/-- C3 (amended): the Normalizer's output norm is exactly 1 under
`tolerance = 0` provided the input's norm is at least the `F.normalize` clamp
floor; under `tolerance > 0` it lies in `[1 - tolerance, 1 + tolerance]`
provided the dtype `eps` floor does not override the divisor; and an input
whose norm already lies in the band is returned unscaled. -/
theorem normalizer_band {n : ℕ} (v : Fin n → ℝ) (normEps eps : ℝ) :
    (normalizeFloor ≤ norm2 v → norm2 (l2normBase 0 eps v) = 1)
    ∧ (0 < normEps → 0 < eps →
        eps ≤ norm2 v / clampTo (norm2 v) (1 - normEps) (1 + normEps) →
        1 - normEps ≤ norm2 (l2normBase normEps eps v)
        ∧ norm2 (l2normBase normEps eps v) ≤ 1 + normEps)
    ∧ (0 < normEps → eps ≤ 1 → 1 - normEps ≤ norm2 v → norm2 v ≤ 1 + normEps →
        l2normBase normEps eps v = v) := by
  refine ⟨fun h => ?_, fun he heps h => ?_, fun he heps hlo hhi => ?_⟩
  · rw [l2normBase_zero]
    exact fnormalize_norm2 v h
  · rw [l2normBase_pos normEps eps (ne_of_gt he), l2normSoft_norm2 normEps eps v heps h]
    exact clampTo_band (norm2 v) normEps he.le
  · rw [l2normBase_pos normEps eps (ne_of_gt he)]
    exact l2normSoft_in_band normEps eps v heps hlo hhi

/-- C3 witness: concrete instances of all three parts. -/
theorem normalizer_band_witness :
    norm2 (l2normBase 0 0 ![(3 : ℝ), 4]) = 1
    ∧ l2normBase (1 / 2) (1 / 100) ![(3 / 5 : ℝ), 4 / 5] = ![(3 / 5 : ℝ), 4 / 5] := by
  constructor
  · exact (normalizer_band ![(3 : ℝ), 4] (1 / 2) 0).1
      (by rw [norm2_three_four]; unfold normalizeFloor; norm_num)
  · exact (normalizer_band ![(3 / 5 : ℝ), 4 / 5] (1 / 2) (1 / 100)).2.2
      (by norm_num) (by norm_num)
      (by rw [norm2_unit_pair]; norm_num) (by rw [norm2_unit_pair]; norm_num)

/-- C3 counterexample: at the zero vector, the `tolerance = 0` Normalizer
returns the zero vector, whose norm is 0, not 1. -/
theorem normalizer_band_cex : norm2 (l2normBase 0 0 (fun _ : Fin 1 => (0 : ℝ))) ≠ 1 := by
  rw [l2normBase_zero]
  have h : fnormalize (fun _ : Fin 1 => (0 : ℝ)) = fun _ => 0 := by
    funext i; unfold fnormalize; simp
  rw [h, show norm2 (fun _ : Fin 1 => (0 : ℝ)) = 0 by rw [norm2_single]; simp]
  norm_num

/-- A single-component vector of value `5e-13` is below the `1e-12` clamp
floor, so `F.normalize` divides it by the floor, producing `1/2`. -/
theorem fnormalize_tiny_single :
    l2normBase 0 0 (fun _ : Fin 1 => (5 : ℝ) / 10 ^ 13) = fun _ => 1 / 2 := by
  rw [l2normBase_zero]
  funext i
  unfold fnormalize
  rw [norm2_single, abs_of_pos (by norm_num),
    max_eq_right (by unfold normalizeFloor; norm_num)]
  unfold normalizeFloor
  norm_num

theorem fnormalize_half_single :
    l2normBase 0 0 (fun _ : Fin 1 => (1 : ℝ) / 2) = fun _ => 1 := by
  rw [l2normBase_zero]
  funext i
  unfold fnormalize
  rw [norm2_single, abs_of_pos (by norm_num),
    max_eq_left (by unfold normalizeFloor; norm_num)]
  norm_num

/- ### Claim C5 -/

/-- C5 (amended): with `tolerance = 0`, the Normalizer is idempotent and its
output has Euclidean norm exactly 1 on every vector whose norm is at least the
`F.normalize` clamp floor of `1e-12` (below the floor the library divides by
the floor instead, which neither normalizes nor is idempotent). -/
theorem normalizer_idempotent {n : ℕ} (eps : ℝ) (v : Fin n → ℝ)
    (h : normalizeFloor ≤ norm2 v) :
    l2normBase 0 eps (l2normBase 0 eps v) = l2normBase 0 eps v
    ∧ norm2 (l2normBase 0 eps v) = 1 := by
  rw [l2normBase_zero, l2normBase_zero]
  have hn := fnormalize_norm2 v h
  exact ⟨fnormalize_fixed _ hn, hn⟩

/-- C5 witness: the vector `(3, 4)`. -/
theorem normalizer_idempotent_witness :
    l2normBase 0 0 (l2normBase 0 0 ![(3 : ℝ), 4]) = l2normBase 0 0 ![(3 : ℝ), 4]
    ∧ norm2 (l2normBase 0 0 ![(3 : ℝ), 4]) = 1 :=
  normalizer_idempotent 0 ![(3 : ℝ), 4]
    (by rw [norm2_three_four]; unfold normalizeFloor; norm_num)

/-- C5 counterexample: the non-zero vector `(5e-13)` has norm below the
`1e-12` clamp floor, so `F.normalize` divides by the floor: the output is
`(1/2)`, of norm `1/2 ≠ 1`, and a second application does change it (to `(1)`),
so neither conjunct of the claim holds for this non-zero vector. -/
theorem normalizer_idempotent_cex :
    (fun _ : Fin 1 => (5 : ℝ) / 10 ^ 13) ≠ (fun _ => (0 : ℝ))
    ∧ norm2 (l2normBase 0 0 (fun _ : Fin 1 => (5 : ℝ) / 10 ^ 13)) ≠ 1
    ∧ l2normBase 0 0 (l2normBase 0 0 (fun _ : Fin 1 => (5 : ℝ) / 10 ^ 13))
      ≠ l2normBase 0 0 (fun _ : Fin 1 => (5 : ℝ) / 10 ^ 13) := by
  have h1 := fnormalize_tiny_single
  have h2 := fnormalize_half_single
  refine ⟨?_, ?_, ?_⟩
  · intro h
    have := congrFun h 0
    norm_num at this
  · rw [h1, norm2_single, abs_of_pos (by norm_num)]
    norm_num
  · rw [h1, h2]
    intro h
    have := congrFun h 0
    norm_num at this

/- ### NormLinear: the norm-constrained projection -/

/-- The weight actually used by `NormLinear` with `norm_dim_in = True`: the
parametrization applies `l2norm(weight, dim=-1, groups)` — row-wise, since
chunk/stack/cat along the last axis leave rows aligned — when
`parametrize = True` (eager policy); the raw stored weight is used directly
when `parametrize = False` (lazy policy). -/
noncomputable def NormLinear.weightView (g m dimOut : ℕ) (normEps eps : ℝ)
    (parametrize : Bool) (W : Fin dimOut → Fin (g * m) → ℝ) :
    Fin dimOut → Fin (g * m) → ℝ :=
  if parametrize then fun o => l2norm g m normEps eps (W o) else W

/-- `NormLinear.forward` with `norm_dim_in = True`:
`self.linear(x) * self.scale` where `scale = groups ** -1` and `linear` has no
bias, so output `o` is `(∑ i, W[o][i] * x[i]) * groups⁻¹` over the used
weight. -/
noncomputable def NormLinear.forward (g m dimOut : ℕ) (normEps eps : ℝ)
    (parametrize : Bool) (W : Fin dimOut → Fin (g * m) → ℝ)
    (x : Fin (g * m) → ℝ) : Fin dimOut → ℝ :=
  fun o =>
    (∑ i, NormLinear.weightView g m dimOut normEps eps parametrize W o i * x i) * (g : ℝ)⁻¹

/-- `F.normalize(W, dim=0)`: column-wise normalization — the `groups = 1`
path of `l2norm` with `dim = 0` (the code skips chunking). -/
noncomputable def fnormalizeDim0 {R C : ℕ} (W : Fin R → Fin C → ℝ) :
    Fin R → Fin C → ℝ :=
  fun r c => W r c / max (norm2 (fun r2 => W r2 c)) normalizeFloor

/-- `l2norm(W, dim=0, groups=g)` with `g > 1`, exactly as the code computes
it: `W.chunk(g, dim=0)` (contiguous chunks of `m` rows), `stack` (a fresh
LEADING axis of size `g`), then `F.normalize(dim=0)` — which now normalizes
along the STACK axis, i.e. for each (row-within-chunk, column) pair the
`g`-vector ranging across chunks — then `cat(dim=0)`. -/
noncomputable def l2normDim0Grouped (g m C : ℕ) (normEps eps : ℝ)
    (W : Fin (g * m) → Fin C → ℝ) : Fin (g * m) → Fin C → ℝ :=
  fun i c =>
    l2normBase normEps eps (fun k : Fin g => W (sliceIdx k (posIdx i)) c) (groupIdx i)

/-- `l2norm(W, dim=0, norm_eps, eps, groups)` as dispatched by the code's
`groups > 1` test. -/
noncomputable def l2normDim0 (g m C : ℕ) (normEps eps : ℝ)
    (W : Fin (g * m) → Fin C → ℝ) : Fin (g * m) → Fin C → ℝ :=
  if 1 < g then l2normDim0Grouped g m C normEps eps W
  else fun r c => l2normBase normEps eps (fun r2 => W r2 c) r

/-- The weight used by `NormLinear` with `norm_dim_in = False` (its `L2Norm`
has `dim = 0`). -/
noncomputable def NormLinear.weightViewDim0 (g m C : ℕ) (normEps eps : ℝ)
    (parametrize : Bool) (W : Fin (g * m) → Fin C → ℝ) :
    Fin (g * m) → Fin C → ℝ :=
  if parametrize then l2normDim0 g m C normEps eps W else W

/-- `NormLinear.forward` with `norm_dim_in = False`. -/
noncomputable def NormLinear.forwardDim0 (g m C : ℕ) (normEps eps : ℝ)
    (parametrize : Bool) (W : Fin (g * m) → Fin C → ℝ)
    (x : Fin C → ℝ) : Fin (g * m) → ℝ :=
  fun o =>
    (∑ i, NormLinear.weightViewDim0 g m C normEps eps parametrize W o i * x i) * (g : ℝ)⁻¹

/-- A row all of whose contiguous group slices have unit norm is fixed by the
last-axis grouped normalizer (with `norm_eps = 0`). -/
theorem l2norm_fixed_of_unit_chunks (g m : ℕ) (eps : ℝ) (v : Fin (g * m) → ℝ)
    (h : ∀ c, norm2 (chunkOf v c) = 1) : l2norm g m 0 eps v = v := by
  unfold l2norm
  have hc : (fun c => l2normBase 0 eps (chunkOf v c)) = chunkOf v := by
    funext c
    rw [l2normBase_zero]
    exact fnormalize_fixed _ (h c)
  rw [hc, catChunks_chunkOf]

/- ### Claim C2 -/

/-- C2 (amended): for input-axis-normalized projections (`norm_dim_in = True`,
any group count), whenever every contiguous group slice of every stored weight
row has unit norm, the eager (`parametrize = True`) and lazy
(`parametrize = False`) policies produce equal forward outputs on every input;
for output-axis-normalized projections (`norm_dim_in = False`) with
`group_count = 1`, whenever every stored weight column has unit norm, the two
policies likewise agree on every input.  (For output-axis normalization with
`group_count > 1` the equality fails — see the counterexample — because the
code's `dim = 0` grouped normalizer renormalizes across the chunk-stacking
axis even on an invariant-satisfying weight.) -/
theorem eager_lazy_forward_agree (g m dimOut R C : ℕ) (eps : ℝ)
    (W : Fin dimOut → Fin (g * m) → ℝ) (V : Fin (1 * R) → Fin C → ℝ) :
    ((∀ o c, norm2 (chunkOf (W o) c) = 1) → ∀ x,
      NormLinear.forward g m dimOut 0 eps true W x
        = NormLinear.forward g m dimOut 0 eps false W x)
    ∧ ((∀ c, norm2 (fun r => V r c) = 1) → ∀ x,
      NormLinear.forwardDim0 1 R C 0 eps true V x
        = NormLinear.forwardDim0 1 R C 0 eps false V x) := by
  constructor
  · intro h x
    unfold NormLinear.forward NormLinear.weightView
    have hW : (fun o => l2norm g m 0 eps (W o)) = W := by
      funext o
      exact l2norm_fixed_of_unit_chunks g m eps (W o) (h o)
    simp only [if_true, Bool.false_eq_true, if_false, hW]
  · intro h x
    unfold NormLinear.forwardDim0
    have hview : NormLinear.weightViewDim0 1 R C 0 eps true V = V := by
      unfold NormLinear.weightViewDim0 l2normDim0
      rw [if_pos rfl, if_neg (by norm_num)]
      funext r c
      rw [l2normBase_zero]
      exact congrFun (fnormalize_fixed _ (h c)) r
    have hlazy : NormLinear.weightViewDim0 1 R C 0 eps false V = V := rfl
    rw [hview, hlazy]

/-- C2 witness: an input-axis `2 × (2·1)` configuration with unit group
slices, and an output-axis `(1·2) × 1` configuration (group count 1) with a
unit-norm column. -/
theorem eager_lazy_forward_agree_witness :
    NormLinear.forward 2 1 1 0 0 true (fun _ i => if i.val = 0 then 1 else -1) (fun _ => 1)
      = NormLinear.forward 2 1 1 0 0 false (fun _ i => if i.val = 0 then 1 else -1)
        (fun _ => 1)
    ∧ NormLinear.forwardDim0 1 2 1 0 0 true
        (fun r _ => if r.val = 0 then (3 / 5 : ℝ) else 4 / 5) (fun _ => 1)
      = NormLinear.forwardDim0 1 2 1 0 0 false
        (fun r _ => if r.val = 0 then (3 / 5 : ℝ) else 4 / 5) (fun _ => 1) := by
  constructor
  · refine (eager_lazy_forward_agree 2 1 1 2 1 0
      (fun _ i => if i.val = 0 then 1 else -1)
      (fun r _ => if r.val = 0 then (3 / 5 : ℝ) else 4 / 5)).1 ?_ _
    intro o c
    unfold chunkOf sliceIdx norm2
    rw [Fin.sum_univ_one]
    fin_cases c <;> norm_num
  · refine (eager_lazy_forward_agree 2 1 1 2 1 0
      (fun _ i => if i.val = 0 then 1 else -1)
      (fun r _ => if r.val = 0 then (3 / 5 : ℝ) else 4 / 5)).2 ?_ _
    intro c
    show norm2 (fun r : Fin 2 => if r.val = 0 then (3 / 5 : ℝ) else 4 / 5) = 1
    unfold norm2
    rw [Fin.sum_univ_two]
    show Real.sqrt ((3 / 5 : ℝ) ^ 2 + (4 / 5) ^ 2) = 1
    rw [show (3 / 5 : ℝ) ^ 2 + (4 / 5) ^ 2 = 1 by norm_num, Real.sqrt_one]

/-- C2 counterexample: the output-axis-normalized (`norm_dim_in = False`)
projection with `group_count = 2` on the stored weight column
`(1, 0, 3/5, 4/5)` — whose two contiguous group slices `(1,0)` and
`(3/5,4/5)` both have unit norm, so the weight satisfies the claimed
invariant — produces different eager and lazy outputs at row 3 on the input
`(1)`: eager gives `1/2`, lazy gives `2/5`. -/
theorem eager_lazy_forward_cex :
    (∀ c : Fin 1, ∀ k : Fin 2, norm2 (fun r : Fin 2 =>
      (fun r2 : Fin (2 * 2) => fun _ : Fin 1 =>
        if r2.val = 0 then (1 : ℝ) else if r2.val = 1 then 0
        else if r2.val = 2 then 3 / 5 else 4 / 5) (sliceIdx k r) c) = 1)
    ∧ NormLinear.forwardDim0 2 2 1 0 0 true
        (fun r2 _ => if r2.val = 0 then (1 : ℝ) else if r2.val = 1 then 0
          else if r2.val = 2 then 3 / 5 else 4 / 5) (fun _ => 1) ⟨3, by norm_num⟩
      = 1 / 2
    ∧ NormLinear.forwardDim0 2 2 1 0 0 false
        (fun r2 _ => if r2.val = 0 then (1 : ℝ) else if r2.val = 1 then 0
          else if r2.val = 2 then 3 / 5 else 4 / 5) (fun _ => 1) ⟨3, by norm_num⟩
      = 2 / 5 := by
  refine ⟨?_, ?_, ?_⟩
  · intro c k
    unfold norm2 sliceIdx
    rw [Fin.sum_univ_two]
    fin_cases k
    all_goals norm_num
  · unfold NormLinear.forwardDim0 NormLinear.weightViewDim0 l2normDim0 l2normDim0Grouped
    rw [Fin.sum_univ_one]
    norm_num
    rw [l2normBase_zero]
    unfold fnormalize posIdx groupIdx sliceIdx norm2
    rw [Fin.sum_univ_two]
    norm_num
    rw [show Real.sqrt 16 = 4 by
      rw [show (16 : ℝ) = 4 ^ 2 by norm_num, Real.sqrt_sq (by norm_num)]]
    rw [show Real.sqrt 25 = 5 by
      rw [show (25 : ℝ) = 5 ^ 2 by norm_num, Real.sqrt_sq (by norm_num)]]
    rw [max_eq_left (by unfold normalizeFloor; norm_num)]
    norm_num
  · unfold NormLinear.forwardDim0 NormLinear.weightViewDim0
    rw [Fin.sum_univ_one]
    norm_num

/- ### Claim C4 -/

/-- Modelled from the spec: "splitting a vector into `g` groups before
normalizing yields identical results to normalizing each group slice
independently and concatenating", read along the last axis. -/
noncomputable def specGroupwiseNorm (g m : ℕ) (normEps eps : ℝ)
    (v : Fin (g * m) → ℝ) : Fin (g * m) → ℝ :=
  fun i => l2normBase normEps eps (chunkOf v (groupIdx i)) (posIdx i)

/-- Modelled from the spec: the same per-group independent normalization read
along axis 0 — chunk the rows into `g` contiguous groups, L2-normalize each
chunk's columns independently, and concatenate the chunks back. -/
noncomputable def specGroupwiseNormDim0 (g m C : ℕ) (normEps eps : ℝ)
    (W : Fin (g * m) → Fin C → ℝ) : Fin (g * m) → Fin C → ℝ :=
  fun i c =>
    l2normBase normEps eps (fun r : Fin m => W (sliceIdx (groupIdx i) r) c) (posIdx i)

/-- C4: along the last axis the code's grouped normalizer equals per-group
independent normalization followed by concatenation, for every group count;
but along axis 0 (as used by output-axis-normalized projections) with
`group_count = 2` the code's value on the matrix `[[3],[4]]` at entry `(0,0)`
is `3/5` while per-group independent normalization gives `1`: the `dim = 0`
grouped path normalizes along the chunk-stacking axis instead of within each
group. -/
theorem group_normalization_axes :
    (∀ (g m : ℕ) (normEps eps : ℝ) (v : Fin (g * m) → ℝ),
      l2norm g m normEps eps v = specGroupwiseNorm g m normEps eps v)
    ∧ l2normDim0 2 1 1 0 0
        (fun r _ => if r.val = 0 then (3 : ℝ) else 4) ⟨0, by norm_num⟩ ⟨0, by norm_num⟩
      = 3 / 5
    ∧ specGroupwiseNormDim0 2 1 1 0 0
        (fun r _ => if r.val = 0 then (3 : ℝ) else 4) ⟨0, by norm_num⟩ ⟨0, by norm_num⟩
      = 1 := by
  refine ⟨fun g m normEps eps v => rfl, ?_, ?_⟩
  · unfold l2normDim0 l2normDim0Grouped
    norm_num
    rw [l2normBase_zero]
    unfold fnormalize posIdx groupIdx sliceIdx norm2
    rw [Fin.sum_univ_two]
    norm_num
    rw [show Real.sqrt 25 = 5 by
      rw [show (25 : ℝ) = 5 ^ 2 by norm_num, Real.sqrt_sq (by norm_num)]]
    rw [max_eq_left (by unfold normalizeFloor; norm_num)]
  · unfold specGroupwiseNormDim0
    rw [l2normBase_zero]
    unfold fnormalize posIdx groupIdx sliceIdx norm2
    rw [Fin.sum_univ_one]
    norm_num
    rw [show Real.sqrt 9 = 3 by
      rw [show (9 : ℝ) = 3 ^ 2 by norm_num, Real.sqrt_sq (by norm_num)]]
    rw [max_eq_left (by unfold normalizeFloor; norm_num)]
    norm_num

/- ### Claim C6 -/

/-- Tied-embedding logits for one sequence position:
`einsum(tokens, token_embed, 'b n d, c d -> b n c')`, where `token_embed` is
`self.token_embed.weight` — under the eager policy, the parametrized
(normalized) view of the stored embedding matrix.  Note the einsum applies no
`groups⁻¹` factor. -/
noncomputable def tiedLogits (V g m : ℕ) (normEps eps : ℝ) (parametrize : Bool)
    (E : Fin V → Fin (g * m) → ℝ) (t : Fin (g * m) → ℝ) : Fin V → ℝ :=
  fun c => ∑ d, t d * NormLinear.weightView g m V normEps eps parametrize E c d

/-- C6 (amended): with `group_count = 1` (the default `num_hyperspheres`),
logits computed by direct dot-product against the embedding table equal the
logits computed through a separate `NormLinear` holding the same stored
weight, for every hidden state and either enforcement policy.  (For
`group_count ≥ 2` they differ by the factor `group_count⁻¹` that only
`NormLinear.forward` applies — see the counterexample.) -/
theorem tied_untied_logits_agree (m V : ℕ) (normEps eps : ℝ) (p : Bool)
    (E : Fin V → Fin (1 * m) → ℝ) (t : Fin (1 * m) → ℝ) :
    tiedLogits V 1 m normEps eps p E t = NormLinear.forward 1 m V normEps eps p E t := by
  funext c
  unfold tiedLogits NormLinear.forward
  rw [Nat.cast_one, inv_one, mul_one]
  exact Finset.sum_congr rfl fun d _ => mul_comm _ _

/-- C6 counterexample: with `group_count = 2`, on the shared stored weight
matrix `[[1, 1]]` (its two length-1 group slices are unit-norm, so the
normalized view is the matrix itself) and hidden state `(1, 1)`, the tied
dot-product gives `2` while the separate `NormLinear` projection gives `1`. -/
theorem tied_untied_logits_cex :
    tiedLogits 1 2 1 0 0 true (fun _ _ => (1 : ℝ)) (fun _ => 1) ⟨0, by norm_num⟩ = 2
    ∧ NormLinear.forward 2 1 1 0 0 true (fun _ _ => (1 : ℝ)) (fun _ => 1) ⟨0, by norm_num⟩
      = 1 := by
  have hview : NormLinear.weightView 2 1 1 0 0 true (fun _ _ => (1 : ℝ))
      = fun _ _ => 1 := by
    unfold NormLinear.weightView
    rw [if_pos rfl]
    funext o
    refine l2norm_fixed_of_unit_chunks 2 1 0 _ fun c => ?_
    rw [show chunkOf ((fun _ _ => (1 : ℝ)) o) c = fun _ : Fin 1 => 1 from rfl, norm2_single]
    norm_num
  constructor
  · unfold tiedLogits
    rw [hview, Fin.sum_univ_two]
    norm_num
  · unfold NormLinear.forward
    rw [hview, Fin.sum_univ_two]
    norm_num

/- ### Claim C7 -/

/-- `cast_tuple(t, length)`: a non-tuple value is replicated `length` times,
a tuple is taken as is; then `assert len(out) == length` — the assertion
failure is modelled as an `Except.error`, raised at construction time before
any forward pass. -/
def castTuple {α : Type} (t : Sum α (List α)) (length : ℕ) : Except String (List α) :=
  let out := match t with
    | Sum.inl x => List.replicate length x
    | Sum.inr xs => xs
  if out.length = length then Except.ok out else Except.error "cast_tuple: length mismatch"

def exceptOk {ε α : Type} : Except ε α → Bool
  | Except.ok _ => true
  | Except.error _ => false

/-- Sequencing of two construction-time checks: the first failure aborts. -/
def exceptSeq {α : Type} (e1 : Except String (List α))
    (e2 : Except String (List (List α))) : Except String (List (List α)) :=
  match e1 with
  | Except.error msg => Except.error msg
  | Except.ok c =>
    match e2 with
    | Except.error msg => Except.error msg
    | Except.ok cs => Except.ok (c :: cs)

/-- `nGPT.__init__` applies `cast_tuple(hparam, depth)` to each of the ten
scale/init hyperparameters in turn, before any layer is built; the first
failing assertion aborts construction. -/
def castScaleHparams {α : Type} (hs : List (Sum α (List α))) (depth : ℕ) :
    Except String (List (List α)) :=
  match hs with
  | [] => Except.ok []
  | h :: rest => exceptSeq (castTuple h depth) (castScaleHparams rest depth)

theorem castTuple_inl {α : Type} (x : α) (depth : ℕ) :
    castTuple (Sum.inl x : Sum α (List α)) depth = Except.ok (List.replicate depth x) := by
  unfold castTuple
  simp

theorem exceptSeq_ok {α : Type} (c : List α) (e2 : Except String (List (List α))) :
    exceptOk (exceptSeq (Except.ok c) e2) = exceptOk e2 := by
  cases e2 <;> rfl

theorem exceptSeq_error {α : Type} (msg : String) (e2 : Except String (List (List α))) :
    exceptSeq (Except.error msg : Except String (List α)) e2 = Except.error msg := rfl

theorem castScaleHparams_cons {α : Type} (h : Sum α (List α))
    (rest : List (Sum α (List α))) (depth : ℕ) :
    castScaleHparams (h :: rest) depth
      = exceptSeq (castTuple h depth) (castScaleHparams rest depth) := rfl

/-- C7: construction-time validation of the scale/init hyperparameters
succeeds exactly when every hyperparameter supplied as a sequence has length
`depth`; scalars (broadcast to all layers) never fail. -/
theorem scale_hparam_length_check {α : Type} (depth : ℕ) (hs : List (Sum α (List α))) :
    exceptOk (castScaleHparams hs depth) = true
      ↔ ∀ xs : List α, Sum.inr xs ∈ hs → xs.length = depth := by
  induction hs with
  | nil => simp [castScaleHparams, exceptOk]
  | cons h rest ih =>
    cases h with
    | inl x =>
      rw [castScaleHparams_cons, castTuple_inl, exceptSeq_ok, ih]
      constructor
      · intro hall ys hmem
        rcases List.mem_cons.mp hmem with heq | hmem2
        · exact absurd heq (by simp)
        · exact hall ys hmem2
      · intro hall ys hmem
        exact hall ys (List.mem_cons_of_mem _ hmem)
    | inr xs =>
      by_cases hlen : xs.length = depth
      · rw [castScaleHparams_cons,
          show castTuple (Sum.inr xs : Sum α (List α)) depth = Except.ok xs by
            unfold castTuple; simp [hlen],
          exceptSeq_ok, ih]
        constructor
        · intro hall ys hmem
          rcases List.mem_cons.mp hmem with heq | hmem2
          · injection heq with hy
            subst hy
            exact hlen
          · exact hall ys hmem2
        · intro hall ys hmem
          exact hall ys (List.mem_cons_of_mem _ hmem)
      · rw [castScaleHparams_cons,
          show castTuple (Sum.inr xs : Sum α (List α)) depth
              = Except.error "cast_tuple: length mismatch" by
            unfold castTuple; simp [hlen],
          exceptSeq_error]
        constructor
        · intro hfalse
          exact absurd hfalse (by simp [exceptOk])
        · intro hall
          exact (hlen (hall xs (List.mem_cons_self _ _))).elim

/- ### Claim C10 -/

/-- `NormLinear.norm_weights_` acting on the stored weight of an
input-axis-normalized projection: under the eager policy
(`parametrize = True`) the parametrized view `l2norm(original)` is copied
onto the stored `original`; under the lazy policy the stored weight is
overwritten with `l2norm(weight)` directly.  Either way the stored matrix
becomes the grouped row normalization of the old one. -/
noncomputable def NormLinear.normWeights (g m R : ℕ) (normEps eps : ℝ)
    (parametrize : Bool) (W : Fin R → Fin (g * m) → ℝ) : Fin R → Fin (g * m) → ℝ :=
  if parametrize then fun r => l2norm g m normEps eps (W r)
  else fun r => l2norm g m normEps eps (W r)

/-- `NormLinear.norm_weights_` for an output-axis-normalized module
(`norm_dim_in = False`, e.g. `Attention.to_out` and `FeedForward.to_out`):
the stored weight becomes `l2norm(weight, dim=0, groups)` of the old one,
under either policy. -/
noncomputable def NormLinear.normWeightsDim0 (g m C : ℕ) (normEps eps : ℝ)
    (parametrize : Bool) (W : Fin (g * m) → Fin C → ℝ) : Fin (g * m) → Fin C → ℝ :=
  if parametrize then l2normDim0 g m C normEps eps W
  else l2normDim0 g m C normEps eps W

theorem normWeightsDim0_eq (g m C : ℕ) (normEps eps : ℝ) (p : Bool)
    (W : Fin (g * m) → Fin C → ℝ) :
    NormLinear.normWeightsDim0 g m C normEps eps p W = l2normDim0 g m C normEps eps W := by
  unfold NormLinear.normWeightsDim0
  cases p <;> rfl

/-- One grouped-normalization pass is idempotent on a row whose group slices
all have norm at least the clamp floor. -/
theorem l2norm_idempotent_row (g m : ℕ) (eps : ℝ) (v : Fin (g * m) → ℝ)
    (h : ∀ c, normalizeFloor ≤ norm2 (chunkOf v c)) :
    l2norm g m 0 eps (l2norm g m 0 eps v) = l2norm g m 0 eps v := by
  apply l2norm_fixed_of_unit_chunks
  intro c
  rw [show chunkOf (l2norm g m 0 eps v) c = l2normBase 0 eps (chunkOf v c) by
    unfold l2norm
    exact chunkOf_catChunks _ c]
  rw [l2normBase_zero]
  exact fnormalize_norm2 _ (h c)

theorem l2normDim0_one (R C : ℕ) (normEps eps : ℝ) (V : Fin (1 * R) → Fin C → ℝ) :
    l2normDim0 1 R C normEps eps V
      = fun r c => l2normBase normEps eps (fun r2 => V r2 c) r := by
  unfold l2normDim0
  rw [if_neg (by norm_num)]

/-- Column normalization (`dim = 0`, one group) is idempotent on a matrix all
of whose columns have norm at least the clamp floor. -/
theorem l2normDim0_one_idempotent (R C : ℕ) (eps : ℝ) (V : Fin (1 * R) → Fin C → ℝ)
    (h : ∀ c, normalizeFloor ≤ norm2 (fun r => V r c)) :
    l2normDim0 1 R C 0 eps (l2normDim0 1 R C 0 eps V) = l2normDim0 1 R C 0 eps V := by
  have hone : ∀ (U : Fin (1 * R) → Fin C → ℝ),
      l2normDim0 1 R C 0 eps U = fun r c => fnormalize (fun r2 => U r2 c) r := by
    intro U
    rw [l2normDim0_one]
    funext r c
    rw [l2normBase_zero]
  rw [hone V, hone]
  funext r c
  have hcol : (fun r2 => (fun r3 c3 => fnormalize (fun r4 => V r4 c3) r3) r2 c)
      = fnormalize (fun r4 => V r4 c) := rfl
  rw [hcol, fnormalize_fixed _ (fnormalize_norm2 _ (h c))]

theorem l2normDim0_grouped_branch (g m C : ℕ) (normEps eps : ℝ) (hg : 1 < g)
    (U : Fin (g * m) → Fin C → ℝ) :
    l2normDim0 g m C normEps eps U = l2normDim0Grouped g m C normEps eps U := by
  unfold l2normDim0
  rw [if_pos hg]

/-- The stacked-axis normalization the code performs for `dim = 0` with
`groups > 1` is idempotent on a matrix all of whose cross-chunk fibers (the
vectors it actually normalizes) have norm at least the clamp floor. -/
theorem l2normDim0Grouped_idempotent (g m C : ℕ) (eps : ℝ)
    (U : Fin (g * m) → Fin C → ℝ)
    (h : ∀ (r : Fin m) (c : Fin C),
      normalizeFloor ≤ norm2 (fun k : Fin g => U (sliceIdx k r) c)) :
    l2normDim0Grouped g m C 0 eps (l2normDim0Grouped g m C 0 eps U)
      = l2normDim0Grouped g m C 0 eps U := by
  funext i c
  unfold l2normDim0Grouped
  simp only [posIdx_sliceIdx, groupIdx_sliceIdx, l2normBase_zero]
  rw [show (fun k : Fin g => fnormalize (fun k2 : Fin g => U (sliceIdx k2 (posIdx i)) c) k)
      = fnormalize (fun k2 : Fin g => U (sliceIdx k2 (posIdx i)) c) from rfl]
  rw [fnormalize_fixed _ (fnormalize_norm2 _ (h (posIdx i) c))]

/-- C10 (amended): the explicit renormalization pass is idempotent, under
both enforcement policies, on every stored weight all of whose normalization
fibers have norm at least the `F.normalize` clamp floor of `1e-12` — the row
group slices for input-axis-normalized weights, the columns for output-axis
weights with group count 1, and the cross-chunk fibers (the vectors the
`dim = 0` grouped normalizer actually acts on) for output-axis weights with
group count > 1.  (On a weight with a fiber below the floor the first pass
divides by the floor instead of the fiber norm, and a second pass moves the
weight again — see the counterexample.) -/
theorem renorm_pass_idempotent (g m R R2 C g2 m2 C2 : ℕ) (eps : ℝ) (p : Bool)
    (W : Fin R → Fin (g * m) → ℝ) (V : Fin (1 * R2) → Fin C → ℝ)
    (U : Fin (g2 * m2) → Fin C2 → ℝ) :
    ((∀ r c, normalizeFloor ≤ norm2 (chunkOf (W r) c)) →
      NormLinear.normWeights g m R 0 eps p (NormLinear.normWeights g m R 0 eps p W)
        = NormLinear.normWeights g m R 0 eps p W)
    ∧ ((∀ c, normalizeFloor ≤ norm2 (fun r => V r c)) →
      NormLinear.normWeightsDim0 1 R2 C 0 eps p
          (NormLinear.normWeightsDim0 1 R2 C 0 eps p V)
        = NormLinear.normWeightsDim0 1 R2 C 0 eps p V)
    ∧ (1 < g2 →
      (∀ (r : Fin m2) (c : Fin C2),
        normalizeFloor ≤ norm2 (fun k : Fin g2 => U (sliceIdx k r) c)) →
      NormLinear.normWeightsDim0 g2 m2 C2 0 eps p
          (NormLinear.normWeightsDim0 g2 m2 C2 0 eps p U)
        = NormLinear.normWeightsDim0 g2 m2 C2 0 eps p U) := by
  refine ⟨fun h => ?_, fun h => ?_, fun hg h => ?_⟩
  · have hrow : (fun r => l2norm g m 0 eps (l2norm g m 0 eps (W r)))
        = fun r => l2norm g m 0 eps (W r) := by
      funext r
      exact l2norm_idempotent_row g m eps (W r) (h r)
    cases p
    · simpa [NormLinear.normWeights] using hrow
    · simpa [NormLinear.normWeights] using hrow
  · rw [normWeightsDim0_eq 1 R2 C 0 eps p V, normWeightsDim0_eq 1 R2 C 0 eps p _]
    exact l2normDim0_one_idempotent R2 C eps V h
  · rw [normWeightsDim0_eq g2 m2 C2 0 eps p U,
      l2normDim0_grouped_branch g2 m2 C2 0 eps hg U,
      normWeightsDim0_eq g2 m2 C2 0 eps p _,
      l2normDim0_grouped_branch g2 m2 C2 0 eps hg _]
    exact l2normDim0Grouped_idempotent g2 m2 C2 eps U h

/-- C10 witness: the stored weight `[[3, 4]]` (one row, one group of norm 5)
for the input-axis case, and the stored column `(3, 4)` for the output-axis
cases with group counts 1 and 2. -/
theorem renorm_pass_idempotent_witness :
    NormLinear.normWeights 1 2 1 0 0 true
        (NormLinear.normWeights 1 2 1 0 0 true (fun _ => ![(3 : ℝ), 4]))
      = NormLinear.normWeights 1 2 1 0 0 true (fun _ => ![(3 : ℝ), 4])
    ∧ NormLinear.normWeightsDim0 1 2 1 0 0 true
        (NormLinear.normWeightsDim0 1 2 1 0 0 true
          (fun r _ => if r.val = 0 then (3 : ℝ) else 4))
      = NormLinear.normWeightsDim0 1 2 1 0 0 true
          (fun r _ => if r.val = 0 then (3 : ℝ) else 4)
    ∧ NormLinear.normWeightsDim0 2 1 1 0 0 true
        (NormLinear.normWeightsDim0 2 1 1 0 0 true
          (fun r _ => if r.val = 0 then (3 : ℝ) else 4))
      = NormLinear.normWeightsDim0 2 1 1 0 0 true
          (fun r _ => if r.val = 0 then (3 : ℝ) else 4) := by
  refine ⟨(renorm_pass_idempotent 1 2 1 2 1 2 1 1 0 true (fun _ => ![(3 : ℝ), 4])
      (fun r _ => if r.val = 0 then (3 : ℝ) else 4)
      (fun r _ => if r.val = 0 then (3 : ℝ) else 4)).1 ?_,
    (renorm_pass_idempotent 1 2 1 2 1 2 1 1 0 true (fun _ => ![(3 : ℝ), 4])
      (fun r _ => if r.val = 0 then (3 : ℝ) else 4)
      (fun r _ => if r.val = 0 then (3 : ℝ) else 4)).2.1 ?_,
    (renorm_pass_idempotent 1 2 1 2 1 2 1 1 0 true (fun _ => ![(3 : ℝ), 4])
      (fun r _ => if r.val = 0 then (3 : ℝ) else 4)
      (fun r _ => if r.val = 0 then (3 : ℝ) else 4)).2.2 (by norm_num) ?_⟩
  · intro r c
    rw [show chunkOf ((fun _ : Fin 1 => ![(3 : ℝ), 4]) r) c = ![(3 : ℝ), 4] by
      funext i
      unfold chunkOf sliceIdx
      refine congrArg _ (Fin.ext ?_)
      simp [Fin.val_eq_zero c]]
    rw [norm2_three_four]
    unfold normalizeFloor
    norm_num
  · intro c
    show normalizeFloor ≤ norm2 (fun r : Fin 2 => if r.val = 0 then (3 : ℝ) else 4)
    unfold norm2
    rw [Fin.sum_univ_two]
    show normalizeFloor ≤ Real.sqrt ((3 : ℝ) ^ 2 + 4 ^ 2)
    rw [show (3 : ℝ) ^ 2 + 4 ^ 2 = 5 ^ 2 by norm_num, Real.sqrt_sq (by norm_num)]
    unfold normalizeFloor
    norm_num
  · intro r c
    have hr : r = 0 := Subsingleton.elim r 0
    subst hr
    unfold norm2
    rw [Fin.sum_univ_two]
    show normalizeFloor ≤ Real.sqrt ((3 : ℝ) ^ 2 + 4 ^ 2)
    rw [show (3 : ℝ) ^ 2 + 4 ^ 2 = 5 ^ 2 by norm_num, Real.sqrt_sq (by norm_num)]
    unfold normalizeFloor
    norm_num

/-- C10 counterexample: on the stored `1 × 1` weight `[[5e-13]]` — whose only
entry is below the clamp floor — one renormalization pass produces `[[1/2]]`
and a second produces `[[1]]`, under either enforcement policy. -/
theorem renorm_pass_idempotent_cex :
    NormLinear.normWeights 1 1 1 0 0 true
        (NormLinear.normWeights 1 1 1 0 0 true (fun _ _ => (5 : ℝ) / 10 ^ 13))
      ≠ NormLinear.normWeights 1 1 1 0 0 true (fun _ _ => (5 : ℝ) / 10 ^ 13)
    ∧ NormLinear.normWeights 1 1 1 0 0 false
        (NormLinear.normWeights 1 1 1 0 0 false (fun _ _ => (5 : ℝ) / 10 ^ 13))
      ≠ NormLinear.normWeights 1 1 1 0 0 false (fun _ _ => (5 : ℝ) / 10 ^ 13) := by
  have hsame : ∀ (W : Fin 1 → Fin (1 * 1) → ℝ),
      NormLinear.normWeights 1 1 1 0 0 false W = NormLinear.normWeights 1 1 1 0 0 true W := by
    intro W
    unfold NormLinear.normWeights
    simp
  have h1 : NormLinear.normWeights 1 1 1 0 0 true (fun _ _ => (5 : ℝ) / 10 ^ 13)
      = fun _ _ => 1 / 2 := by
    unfold NormLinear.normWeights
    rw [if_pos rfl]
    funext r i
    show l2normBase 0 0 (chunkOf ((fun _ _ => (5 : ℝ) / 10 ^ 13) r) (groupIdx i)) (posIdx i)
      = 1 / 2
    rw [show chunkOf ((fun _ _ => (5 : ℝ) / 10 ^ 13) r) (groupIdx i)
        = fun _ : Fin 1 => (5 : ℝ) / 10 ^ 13 from rfl]
    rw [fnormalize_tiny_single]
  have h2 : NormLinear.normWeights 1 1 1 0 0 true (fun _ _ => (1 : ℝ) / 2)
      = fun _ _ => 1 := by
    unfold NormLinear.normWeights
    rw [if_pos rfl]
    funext r i
    show l2normBase 0 0 (chunkOf ((fun _ _ => (1 : ℝ) / 2) r) (groupIdx i)) (posIdx i) = 1
    rw [show chunkOf ((fun _ _ => (1 : ℝ) / 2) r) (groupIdx i)
        = fun _ : Fin 1 => (1 : ℝ) / 2 from rfl]
    rw [fnormalize_half_single]
  have hne : NormLinear.normWeights 1 1 1 0 0 true
      (NormLinear.normWeights 1 1 1 0 0 true (fun _ _ => (5 : ℝ) / 10 ^ 13))
      ≠ NormLinear.normWeights 1 1 1 0 0 true (fun _ _ => (5 : ℝ) / 10 ^ 13) := by
    rw [h1, show NormLinear.normWeights 1 1 1 0 0 true (fun _ _ => (1 : ℝ) / 2)
        = fun _ _ => 1 from h2]
    intro hcontra
    have := congrFun (congrFun hcontra ⟨0, by norm_num⟩) ⟨0, by norm_num⟩
    norm_num at this
  refine ⟨hne, ?_⟩
  rw [hsame, hsame]
  exact hne

/- ### The attention block (claims C8, C9)

These claims concern the default `num_hyperspheres = 1`, `norm_eps = 0`
configuration, whose `NormLinear`s skip the chunking (`l2norm` with one
group is the plain slice normalizer).  The attention kernel
(`F.scaled_dot_product_attention`) and the rotary transform are external
collaborators: they enter the model as opaque function parameters that the
theorems quantify over. -/

/-- A token-representation tensor `(batch, seq, dim)`. -/
abbrev TokT (B N D : ℕ) := Fin B → Fin N → Fin D → ℝ

/-- A per-head tensor `(batch, heads, seq, dim_head)`. -/
abbrev HeadsT (B H N Dh : ℕ) := Fin B → Fin H → Fin N → Fin Dh → ℝ

/-- `NormLinear.forward` with `groups = 1` and `norm_eps = 0`
(`norm_dim_in = True`): the used weight is the row-normalized view under the
eager policy, the raw weight under the lazy one; `scale = 1 ** -1`. -/
noncomputable def normLinear1 (dimIn dimOut : ℕ) (parametrize : Bool)
    (W : Fin dimOut → Fin dimIn → ℝ) (x : Fin dimIn → ℝ) : Fin dimOut → ℝ :=
  fun o => (∑ i, (if parametrize then fun o2 => fnormalize (W o2) else W) o i * x i)
    * (1 : ℝ)⁻¹

/-- `NormLinear.forward` with `groups = 1`, `norm_eps = 0` and
`norm_dim_in = False` (column normalization). -/
noncomputable def normLinear1Dim0 (dimIn dimOut : ℕ) (parametrize : Bool)
    (W : Fin dimOut → Fin dimIn → ℝ) (x : Fin dimIn → ℝ) : Fin dimOut → ℝ :=
  fun o => (∑ i, (if parametrize then fnormalizeDim0 W else W) o i * x i) * (1 : ℝ)⁻¹

/-- `Rearrange('b n (h d) -> b h n d')`. -/
noncomputable def splitHeads (B N H Dh : ℕ) (t : Fin B → Fin N → Fin (H * Dh) → ℝ) :
    HeadsT B H N Dh :=
  fun b h n d => t b n (sliceIdx h d)

/-- `Rearrange('b h n d -> b n (h d)')`. -/
noncomputable def mergeHeads (B N H Dh : ℕ) (t : HeadsT B H N Dh) :
    Fin B → Fin N → Fin (H * Dh) → ℝ :=
  fun b n i => t b (groupIdx i) n (posIdx i)

/-- The learned state of one `Attention` block. -/
structure AttnWeights (D H Dh : ℕ) where
  Wq : Fin (H * Dh) → Fin D → ℝ
  Wk : Fin (H * Dh) → Fin D → ℝ
  Wv : Fin (H * Dh) → Fin D → ℝ
  Wo : Fin D → Fin (H * Dh) → ℝ
  qkStored : Fin (H * Dh) → ℝ
  sQkInit : ℝ
  sQkScale : ℝ

/-- The post-kernel zeroing: `out.masked_fill(row_all_masked_out[:, None, None], 0.)`,
guarded by `exists(mask) and row_all_masked_out.any()`, where
`row_all_masked_out = ~mask.any(dim = -1)`. -/
noncomputable def maskFill (B N D : ℕ) (mask : Option (Fin B → Fin N → Bool))
    (t : TokT B N D) : TokT B N D :=
  match mask with
  | none => t
  | some mk =>
    if ∃ b, ∀ j, mk b j = false then
      fun b n d => if ∀ j, mk b j = false then 0 else t b n d
    else t

/-- `Attention.forward`: project to q/k/v and split heads; blend in a carried
value residual when given (`v = 0.5 * (v + value_residual)`); rotate q and k
when a rotary transform is given; QK-normalize when enabled; scale queries by
the reshaped `qk_scale()`; call the external kernel with the causal flag and
`scale = sqrt(dim_head)`; merge heads; apply the output projection
(`norm_dim_in = False`); zero every batch row whose mask row is entirely
false.  Returns `(out, v)` with `v` the blended value tensor. -/
noncomputable def Attention.forward (B N D H Dh : ℕ) (w : AttnWeights D H Dh)
    (normQK parametrize causal : Bool)
    (rot : Option (HeadsT B H N Dh → HeadsT B H N Dh))
    (sdpa : HeadsT B H N Dh → HeadsT B H N Dh → HeadsT B H N Dh →
      Option (Fin B → Fin N → Bool) → Bool → ℝ → HeadsT B H N Dh)
    (x : TokT B N D) (mask : Option (Fin B → Fin N → Bool))
    (valueResidual : Option (HeadsT B H N Dh)) :
    TokT B N D × HeadsT B H N Dh :=
  let q0 := splitHeads B N H Dh (fun b n => normLinear1 D (H * Dh) parametrize w.Wq (x b n))
  let k0 := splitHeads B N H Dh (fun b n => normLinear1 D (H * Dh) parametrize w.Wk (x b n))
  let v0 := splitHeads B N H Dh (fun b n => normLinear1 D (H * Dh) parametrize w.Wv (x b n))
  let v1 := match valueResidual with
    | some vr => fun b h n d => 0.5 * (v0 b h n d + vr b h n d)
    | none => v0
  let q1 := match rot with
    | some f => f q0
    | none => q0
  let k1 := match rot with
    | some f => f k0
    | none => k0
  let q2 := if normQK then fun b h n => fnormalize (q1 b h n) else q1
  let k2 := if normQK then fun b h n => fnormalize (k1 b h n) else k1
  let q3 := fun b h n d =>
    q2 b h n d * Scale.value w.qkStored w.sQkInit w.sQkScale (sliceIdx h d)
  let kernelOut := sdpa q3 k2 v1 mask causal (Real.sqrt Dh)
  let projected := fun b n =>
    normLinear1Dim0 (H * Dh) D parametrize w.Wo (mergeHeads B N H Dh kernelOut b n)
  (maskFill B N D mask projected, v1)

theorem maskFill_zero (B N D : ℕ) (mk : Fin B → Fin N → Bool) (t : TokT B N D)
    (b : Fin B) (hb : ∀ j, mk b j = false) (n : Fin N) (d : Fin D) :
    maskFill B N D (some mk) t b n d = 0 := by
  show (if ∃ b2, ∀ j, mk b2 j = false then
      fun b2 n2 d2 => if ∀ j, mk b2 j = false then (0 : ℝ) else t b2 n2 d2
    else t) b n d = 0
  rw [if_pos ⟨b, hb⟩]
  exact if_pos hb

/- ### Claim C8 -/

/-- C8: for every batch element whose mask row is entirely false, the
attention block's output at that batch element — after the output
projection — is exactly zero at every position and channel, for EVERY
possible kernel behaviour (the kernel is universally quantified, so even
arbitrary values at the undefined fully-masked rows, the real-valued stand-in
for a float NaN, are erased by the explicit zeroing; no error path exists). -/
theorem fully_masked_row_zero (B N D H Dh : ℕ) (w : AttnWeights D H Dh)
    (normQK parametrize causal : Bool)
    (rot : Option (HeadsT B H N Dh → HeadsT B H N Dh))
    (sdpa : HeadsT B H N Dh → HeadsT B H N Dh → HeadsT B H N Dh →
      Option (Fin B → Fin N → Bool) → Bool → ℝ → HeadsT B H N Dh)
    (x : TokT B N D) (mk : Fin B → Fin N → Bool)
    (vr : Option (HeadsT B H N Dh)) (b : Fin B)
    (hb : ∀ j, mk b j = false) (n : Fin N) (d : Fin D) :
    (Attention.forward B N D H Dh w normQK parametrize causal rot sdpa
        x (some mk) vr).1 b n d = 0 :=
  maskFill_zero B N D mk _ b hb n d

/-- C8 witness: an all-false mask on a one-element batch, with a kernel
constantly returning 37; the output is zero. -/
theorem fully_masked_row_zero_witness :
    (Attention.forward 1 1 1 1 1
        ⟨fun _ _ => 1, fun _ _ => 1, fun _ _ => 1, fun _ _ => 1, fun _ => 1, 1, 1⟩
        true true true none (fun _ _ _ _ _ _ => fun _ _ _ _ => 37)
        (fun _ _ _ => 1) (some fun _ _ => false) none).1
      ⟨0, by norm_num⟩ ⟨0, by norm_num⟩ ⟨0, by norm_num⟩ = 0 :=
  fully_masked_row_zero 1 1 1 1 1
    ⟨fun _ _ => 1, fun _ _ => 1, fun _ _ => 1, fun _ _ => 1, fun _ => 1, 1, 1⟩
    true true true none (fun _ _ _ _ _ _ => fun _ _ _ _ => 37)
    (fun _ _ _ => 1) (fun _ _ => false) none ⟨0, by norm_num⟩
    (fun _ => rfl) ⟨0, by norm_num⟩ ⟨0, by norm_num⟩

/- ### The feedforward block, the residual wrapper on tensors, and the layer
stack (claim C9) -/

/-- `F.silu(x) = x * sigmoid(x)`. -/
noncomputable def silu (x : ℝ) : ℝ := x * (1 / (1 + Real.exp (-x)))

/-- `FeedForward.forward` (default `num_hyperspheres = 1`, `norm_eps = 0`):
hidden and gate projections, their decoupled scales (the gate additionally
times `sqrt(dim)`), `silu(gate) * hidden`, and the output projection
(`norm_dim_in = False`). -/
noncomputable def FeedForward.forward (D dI : ℕ) (parametrize : Bool)
    (Wh Wg : Fin dI → Fin D → ℝ) (Wo : Fin D → Fin dI → ℝ)
    (hStored gStored : Fin dI → ℝ) (hInitV hScaleV gInitV gScaleV : ℝ)
    (x : Fin D → ℝ) : Fin D → ℝ :=
  let hidden := fun i => normLinear1 D dI parametrize Wh x i
    * Scale.value hStored hInitV hScaleV i
  let gate := fun i => normLinear1 D dI parametrize Wg x i
    * Scale.value gStored gInitV gScaleV i * Real.sqrt D
  normLinear1Dim0 dI D parametrize Wo (fun i => silu (gate i) * hidden i)

/-- The normalization / lerp / normalization steps of `Residual.forward`
applied per sequence position of a token tensor (its `L2Norm` acts on the
last axis; `branch_scale()` broadcasts over batch and sequence).  The tuple
passthrough of `Residual.forward` is handled by the caller (`layerStep`). -/
noncomputable def residualApply (B N D : ℕ) (stored : Fin D → ℝ) (iv sv : ℝ)
    (x out : TokT B N D) : TokT B N D :=
  fun b n =>
    l2normBase 0 0 (fun d =>
      lerp (x b n d) (l2normBase 0 0 (out b n) d) (Scale.value stored iv sv d))

/-- The learned state of one layer of the stack: an `Attention` inside a
`Residual`, then a `FeedForward` inside a `Residual`. -/
structure NLayer (B N D H Dh dI : ℕ) where
  attnW : AttnWeights D H Dh
  normQK : Bool
  parametrize : Bool
  causal : Bool
  aStored : Fin D → ℝ
  aInitV : ℝ
  aScaleV : ℝ
  ffWh : Fin dI → Fin D → ℝ
  ffWg : Fin dI → Fin D → ℝ
  ffWo : Fin D → Fin dI → ℝ
  hStored : Fin dI → ℝ
  hInitV : ℝ
  hScaleV : ℝ
  gStored : Fin dI → ℝ
  gInitV : ℝ
  gScaleV : ℝ
  fStored : Fin D → ℝ
  fInitV : ℝ
  fScaleV : ℝ

/-- One iteration of the `for attn, ff in self.layers` loop body:
`tokens, values = attn(tokens, mask=..., rotary_embed=..., return_values=True,
value_residual=vr)` — the `Residual` wrapper normalizes the primary output
and passes the auxiliary `values` through — then `tokens = ff(tokens)`. -/
noncomputable def layerStep (B N D H Dh dI : ℕ) (L : NLayer B N D H Dh dI)
    (rot : Option (HeadsT B H N Dh → HeadsT B H N Dh))
    (sdpa : HeadsT B H N Dh → HeadsT B H N Dh → HeadsT B H N Dh →
      Option (Fin B → Fin N → Bool) → Bool → ℝ → HeadsT B H N Dh)
    (mask : Option (Fin B → Fin N → Bool))
    (tokens : TokT B N D) (vr : Option (HeadsT B H N Dh)) :
    TokT B N D × HeadsT B H N Dh :=
  let res := Attention.forward B N D H Dh L.attnW L.normQK L.parametrize L.causal
    rot sdpa tokens mask vr
  let t1 := residualApply B N D L.aStored L.aInitV L.aScaleV tokens res.1
  let t2 := residualApply B N D L.fStored L.fInitV L.fScaleV t1
    (fun b n => FeedForward.forward D dI L.parametrize L.ffWh L.ffWg L.ffWo
      L.hStored L.gStored L.hInitV L.hScaleV L.gInitV L.gScaleV (t1 b n))
  (t2, res.2)

/-- The depth loop of `nGPT.forward`: starting from `first_values = None`,
each layer is given `value_residual = first_values if add_value_residual else
None`, and afterwards `first_values = default(first_values, values)`. -/
noncomputable def runLayers (B N D H Dh dI : ℕ)
    (rot : Option (HeadsT B H N Dh → HeadsT B H N Dh))
    (sdpa : HeadsT B H N Dh → HeadsT B H N Dh → HeadsT B H N Dh →
      Option (Fin B → Fin N → Bool) → Bool → ℝ → HeadsT B H N Dh)
    (mask : Option (Fin B → Fin N → Bool)) (addVR : Bool) :
    List (NLayer B N D H Dh dI) → TokT B N D → Option (HeadsT B H N Dh) →
      TokT B N D × Option (HeadsT B H N Dh)
  | [], t, fv => (t, fv)
  | L :: rest, t, fv =>
    let s := layerStep B N D H Dh dI L rot sdpa mask t (if addVR then fv else none)
    runLayers B N D H Dh dI rot sdpa mask addVR rest s.1
      (match fv with
       | some v => some v
       | none => some s.2)

/-- The `value_residual` argument each successive layer of the loop receives. -/
noncomputable def residualArgs (B N D H Dh dI : ℕ)
    (rot : Option (HeadsT B H N Dh → HeadsT B H N Dh))
    (sdpa : HeadsT B H N Dh → HeadsT B H N Dh → HeadsT B H N Dh →
      Option (Fin B → Fin N → Bool) → Bool → ℝ → HeadsT B H N Dh)
    (mask : Option (Fin B → Fin N → Bool)) (addVR : Bool) :
    List (NLayer B N D H Dh dI) → TokT B N D → Option (HeadsT B H N Dh) →
      List (Option (HeadsT B H N Dh))
  | [], _, _ => []
  | L :: rest, t, fv =>
    let s := layerStep B N D H Dh dI L rot sdpa mask t (if addVR then fv else none)
    (if addVR then fv else none) ::
      residualArgs B N D H Dh dI rot sdpa mask addVR rest s.1
        (match fv with
         | some v => some v
         | none => some s.2)

/-- Once `first_values` holds a tensor, every remaining layer receives exactly
that tensor. -/
theorem residualArgs_some (B N D H Dh dI : ℕ)
    (rot : Option (HeadsT B H N Dh → HeadsT B H N Dh))
    (sdpa : HeadsT B H N Dh → HeadsT B H N Dh → HeadsT B H N Dh →
      Option (Fin B → Fin N → Bool) → Bool → ℝ → HeadsT B H N Dh)
    (mask : Option (Fin B → Fin N → Bool))
    (ls : List (NLayer B N D H Dh dI)) (w : HeadsT B H N Dh) :
    ∀ t, residualArgs B N D H Dh dI rot sdpa mask true ls t (some w)
      = ls.map fun _ => some w := by
  induction ls with
  | nil => intro t; rfl
  | cons L rest ih =>
    intro t
    simp only [residualArgs, if_true, List.map_cons]
    exact congrArg _ (ih _)

/- ### Claim C9 -/

/-- C9: with value residuals enabled, the first layer's attention receives no
value residual, and every later layer receives the same first-layer value
tensor — the `values` returned by layer 0, unblended since layer 0 received
`None` — not a chained one; and the blend an attention applies to a carried
value is exactly `v = 0.5 * (v + carried)` elementwise, where `v` is the
value tensor the same attention would produce with no residual. -/
theorem value_residual_first_layer (B N D H Dh dI : ℕ)
    (rot : Option (HeadsT B H N Dh → HeadsT B H N Dh))
    (sdpa : HeadsT B H N Dh → HeadsT B H N Dh → HeadsT B H N Dh →
      Option (Fin B → Fin N → Bool) → Bool → ℝ → HeadsT B H N Dh)
    (mask : Option (Fin B → Fin N → Bool))
    (L0 : NLayer B N D H Dh dI) (rest : List (NLayer B N D H Dh dI))
    (tokens : TokT B N D) :
    residualArgs B N D H Dh dI rot sdpa mask true (L0 :: rest) tokens none
      = none :: (rest.map fun _ =>
          some (layerStep B N D H Dh dI L0 rot sdpa mask tokens none).2)
    ∧ ∀ (w : AttnWeights D H Dh) (nq p c : Bool) (x : TokT B N D)
        (mk : Option (Fin B → Fin N → Bool)) (carried : HeadsT B H N Dh),
        (Attention.forward B N D H Dh w nq p c rot sdpa x mk (some carried)).2
          = fun b h n d =>
              0.5 * ((Attention.forward B N D H Dh w nq p c rot sdpa x mk none).2 b h n d
                + carried b h n d) := by
  constructor
  · simp only [residualArgs, if_true]
    exact congrArg _ (residualArgs_some B N D H Dh dI rot sdpa mask rest _ _)
  · intro w nq p c x mk carried
    rfl

end NGPT
